import Mathlib

/-!
Verification of the flat-run timeseries segmenter (`find_breaks`) from the
JWST engineering-data notebook.  The Python function scans two paired
timeseries (x and y channel readings with MJD alignment keys) and splits
them into contiguous sub-series separated by stretches where both readings
stay constant for too long.

The embedding below mirrors the source line by line:

```python
def find_breaks(x_data, y_data, max_flats=5):
    x_vals = x_data['euvalue'].values
    x_dates = x_data['MJD'].values
    y_vals = y_data['euvalue'].values
    y_dates = y_data['MJD'].values
    xy_frame = pd.DataFrame(data=x_dates, columns=['MJD'])
    xy_frame['timestamp'] = x_data['theTime'].values
    xy_frame['x_value'] = x_vals
    xy_frame['y_value'] = y_vals
    results = []
    m = 0
    flat = 0
    recording = True
    for n in range(1, len(x_vals)):
        if x_dates[n] == y_dates[n]:
            x_diff = np.abs(x_vals[n-1] - x_vals[n])
            y_diff = np.abs(y_vals[n-1] - y_vals[n])
            if (x_diff == 0 and y_diff == 0):
                flat += 1
                if not recording:
                    continue
                elif flat >= max_flats:
                    size = (n-max_flats) - m
                    if size > 1:
                        results.append(xy_frame[m:n-(max_flats)])
                    recording = False
            elif (x_diff > 0 or y_diff > 0) and not recording:
                flat = 0
                m = n
                recording = True
    if recording and (n - m) > 1:
        results.append(xy_frame[m:])
    return results
```

Modelling decisions:
* A sample carries its MJD alignment key and its engineering value
  (`euvalue`); the human-readable `theTime` column is carried through the
  combined frame unchanged and never inspected, so segments are modelled as
  half-open index ranges `[start, stop)` into the combined frame rather
  than as copies of the rows.
* Numeric readings are modelled as integers; the scan only ever asks
  whether `|a - b|` is zero or positive.
* The two failure modes of the Python code are modelled in `Except`:
  assigning the `y_value` column raises pandas' `ValueError` when the two
  series have different lengths (before any scanning happens), and the
  read of the loop variable `n` after a loop whose body never ran raises
  `NameError` when the input has fewer than two samples.
-/

namespace FindBreaks

/-- One row of an engineering telemetry table: the MJD alignment key and
the engineering-unit reading (`euvalue`). -/
structure Sample where
  mjd : Int
  euvalue : Int
deriving DecidableEq

/-- A segment of the combined frame: the half-open index range
`[start, stop)` that the Python slice `xy_frame[start:stop]` denotes. -/
structure Segment where
  start : Nat
  stop : Nat
deriving DecidableEq

/-- The scan-local state of `find_breaks`: the candidate segment start
`m`, the accumulated `flat` counter, the `recording` flag and the list of
emitted segments. -/
structure ScanState where
  m : Nat
  flat : Nat
  recording : Bool
  results : List Segment
deriving DecidableEq

/-- The two ways the Python function can raise. -/
inductive PyError where
  | valueError : PyError
  | nameError : PyError
deriving DecidableEq

instance {ε α : Type} [DecidableEq ε] [DecidableEq α] :
    DecidableEq (Except ε α) := fun a b =>
  match a, b with
  | .error e, .error f =>
    if h : e = f then .isTrue (by rw [h]) else .isFalse (by simpa using h)
  | .error _, .ok _ => .isFalse (by simp)
  | .ok _, .error _ => .isFalse (by simp)
  | .ok v, .ok w =>
    if h : v = w then .isTrue (by rw [h]) else .isFalse (by simpa using h)

/-- Reading a series at an index; every access in the source is in range,
so the default value is never observed by `find_breaks`. -/
def sampleAt (l : List Sample) (n : Nat) : Sample :=
  l.getD n ⟨0, 0⟩

/-- `x_dates[n] == y_dates[n]`: the alignment keys of the two series agree
at index `n`. -/
def alignedAt (x y : List Sample) (n : Nat) : Bool :=
  (sampleAt x n).mjd == (sampleAt y n).mjd

/-- `np.abs(vals[n-1] - vals[n])` for one series. -/
def diffAt (l : List Sample) (n : Nat) : Nat :=
  ((sampleAt l (n - 1)).euvalue - (sampleAt l n).euvalue).natAbs

/-- Both channels are unchanged at the aligned index `n`: the body of the
`if (x_diff == 0 and y_diff == 0)` test. -/
def flatAt (x y : List Sample) (n : Nat) : Bool :=
  diffAt x n == 0 && diffAt y n == 0

/-- One iteration of the `for n in range(1, len(x_vals))` loop body. -/
def step (maxFlats : Int) (x y : List Sample) (s : ScanState) (n : Nat) :
    ScanState :=
  if alignedAt x y n then
    if flatAt x y n then
      let flat := s.flat + 1
      if !s.recording then
        { s with flat := flat }
      else if (flat : Int) ≥ maxFlats then
        let size : Int := ((n : Int) - maxFlats) - (s.m : Int)
        let results :=
          if size > 1 then s.results ++ [⟨s.m, ((n : Int) - maxFlats).toNat⟩]
          else s.results
        { s with flat := flat, recording := false, results := results }
      else
        { s with flat := flat }
    else if (diffAt x n > 0 || diffAt y n > 0) && !s.recording then
      { m := n, flat := 0, recording := true, results := s.results }
    else
      s
  else
    s

/-- The state before the loop: `m = 0`, `flat = 0`, `recording = True`,
`results = []`. -/
def startState : ScanState :=
  ⟨0, 0, true, []⟩

/-- Running `j` consecutive loop iterations, for indices
`n0, n0+1, ..., n0+j-1`, from state `s`. -/
def runSteps (maxFlats : Int) (x y : List Sample) (s : ScanState)
    (n0 j : Nat) : ScanState :=
  (List.range' n0 j).foldl (step maxFlats x y) s

/-- The state after the whole `for n in range(1, len(x_vals))` loop. -/
def runScan (maxFlats : Int) (x y : List Sample) : ScanState :=
  runSteps maxFlats x y startState 1 (x.length - 1)

/-- The segmenter.  Building the combined frame assigns the y column to a
frame indexed by the x series, which raises pandas' `ValueError` whenever
the lengths differ; after a loop whose body never ran (fewer than two
samples) the final `if recording and (n - m) > 1` reads the unbound loop
variable `n` and raises `NameError`; otherwise `n` holds the last loop
index `len - 1` and a final segment `xy_frame[m:]` is emitted when the
condition holds. -/
def find_breaks (x y : List Sample) (maxFlats : Int) :
    Except PyError (List Segment) :=
  if y.length ≠ x.length then
    .error .valueError
  else if x.length < 2 then
    .error .nameError
  else
    let s := runScan maxFlats x y
    if s.recording && (((x.length : Int) - 1) - (s.m : Int) > 1) then
      .ok (s.results ++ [⟨s.m, x.length⟩])
    else
      .ok s.results

/-- A list of segments covers index `i` when some segment's half-open
range contains it. -/
def covers (segs : List Segment) (i : Nat) : Bool :=
  segs.any fun s => s.start ≤ i && i < s.stop

/-- Aligned series with the given values: MJD key equals the index. -/
def mkSeries (vals : List Int) : List Sample :=
  (List.range vals.length).map fun (i : Nat) =>
    { mjd := Int.ofNat i, euvalue := vals.getD i 0 }

/-! ### How one loop iteration acts, branch by branch -/

/-- A mismatched MJD key skips the index: no state change at all. -/
theorem step_skip {maxFlats : Int} {x y : List Sample} {s : ScanState}
    {n : Nat} (h : alignedAt x y n = false) :
    step maxFlats x y s n = s := by
  simp [step, h]

/-- A flat sample while not recording only bumps the flat counter
(the `continue` branch). -/
theorem step_flat_idle {maxFlats : Int} {x y : List Sample} {s : ScanState}
    {n : Nat} (ha : alignedAt x y n = true) (hf : flatAt x y n = true)
    (hr : s.recording = false) :
    step maxFlats x y s n = { s with flat := s.flat + 1 } := by
  simp [step, ha, hf, hr]

/-- A flat sample while recording, below the threshold: the counter is
bumped and recording continues. -/
theorem step_flat_low {maxFlats : Int} {x y : List Sample} {s : ScanState}
    {n : Nat} (ha : alignedAt x y n = true) (hf : flatAt x y n = true)
    (hr : s.recording = true) (hlow : ((s.flat + 1 : Nat) : Int) < maxFlats) :
    step maxFlats x y s n = { s with flat := s.flat + 1 } := by
  simp only [step, ha, hf, hr, if_pos, if_true, Bool.not_true,
    Bool.false_eq_true, if_false]
  rw [if_neg (by omega)]

/-- A flat sample reaching the threshold while recording, when the closed
span is long enough: the segment `[m, n - maxFlats)` is emitted and
recording stops. -/
theorem step_flat_close_emit {maxFlats : Int} {x y : List Sample}
    {s : ScanState} {n : Nat} (ha : alignedAt x y n = true)
    (hf : flatAt x y n = true) (hr : s.recording = true)
    (hhi : maxFlats ≤ ((s.flat + 1 : Nat) : Int))
    (hsz : ((n : Int) - maxFlats) - (s.m : Int) > 1) :
    step maxFlats x y s n =
      { s with flat := s.flat + 1, recording := false,
               results := s.results ++ [⟨s.m, ((n : Int) - maxFlats).toNat⟩] } := by
  simp only [step, ha, hf, hr, if_pos, if_true, Bool.not_true,
    Bool.false_eq_true, if_false]
  rw [if_pos (by omega), if_pos hsz]

/-- A flat sample reaching the threshold while recording, when the closed
span is too short: nothing is emitted but recording still stops. -/
theorem step_flat_close_drop {maxFlats : Int} {x y : List Sample}
    {s : ScanState} {n : Nat} (ha : alignedAt x y n = true)
    (hf : flatAt x y n = true) (hr : s.recording = true)
    (hhi : maxFlats ≤ ((s.flat + 1 : Nat) : Int))
    (hsz : ¬(((n : Int) - maxFlats) - (s.m : Int) > 1)) :
    step maxFlats x y s n =
      { s with flat := s.flat + 1, recording := false } := by
  simp only [step, ha, hf, hr, if_pos, if_true, Bool.not_true,
    Bool.false_eq_true, if_false]
  rw [if_pos (by omega), if_neg hsz]

/-- A changing sample while recording does nothing. -/
theorem step_change_recording {maxFlats : Int} {x y : List Sample}
    {s : ScanState} {n : Nat} (ha : alignedAt x y n = true)
    (hf : flatAt x y n = false) (hr : s.recording = true) :
    step maxFlats x y s n = s := by
  simp [step, ha, hf, hr]

/-- A changing sample while not recording restarts recording at `n` and
resets the flat counter. -/
theorem step_change_restart {maxFlats : Int} {x y : List Sample}
    {s : ScanState} {n : Nat} (ha : alignedAt x y n = true)
    (hf : flatAt x y n = false) (hr : s.recording = false) :
    step maxFlats x y s n = ⟨n, 0, true, s.results⟩ := by
  have hd : diffAt x n > 0 ∨ diffAt y n > 0 := by
    by_contra hc
    push_neg at hc
    simp [flatAt, Nat.le_zero.mp hc.1, Nat.le_zero.mp hc.2] at hf
  rcases hd with hd | hd <;>
    simp [step, ha, hf, hr, hd]

/-! ### Folding an invariant through a stretch of loop iterations -/

/-- Invariant preservation through `runSteps`: if `P` is preserved by
every iteration in the index window, it carries from the start state to
the end state. -/
theorem runSteps_inv {maxFlats : Int} {x y : List Sample}
    (P : ScanState → Nat → Prop) :
    ∀ (j n0 : Nat) (s : ScanState),
      (∀ t n, n0 ≤ n → n < n0 + j → P t n → P (step maxFlats x y t n) (n + 1)) →
      P s n0 → P (runSteps maxFlats x y s n0 j) (n0 + j)
  | 0, n0, s, _, hs => hs
  | j + 1, n0, s, hstep, hs => by
    have h1 : P (step maxFlats x y s n0) (n0 + 1) :=
      hstep s n0 (Nat.le_refl _) (by omega) hs
    have h2 := runSteps_inv P j (n0 + 1) (step maxFlats x y s n0)
      (fun t n hn1 hn2 ht => hstep t n (by omega) (by omega) ht) h1
    simpa [runSteps, List.range'_succ, Nat.add_comm, Nat.add_assoc,
      Nat.add_left_comm] using h2

/-! ### The emitted segments form an increasing chain of disjoint ranges -/

/-- `ChainedFrom lo segs`: segment after segment, each range starts no
earlier than `lo`, is non-empty, and ends before the next one begins. -/
def ChainedFrom : Nat → List Segment → Prop
  | _, [] => True
  | lo, seg :: rest => lo ≤ seg.start ∧ seg.start < seg.stop ∧
      ChainedFrom seg.stop rest

/-- The index after the last emitted segment (`lo` when none exists). -/
def endBound : Nat → List Segment → Nat
  | lo, [] => lo
  | _, seg :: rest => endBound seg.stop rest

theorem endBound_append_single :
    ∀ (rs : List Segment) (lo : Nat) (seg : Segment),
      endBound lo (rs ++ [seg]) = seg.stop
  | [], _, _ => rfl
  | _ :: rest, _, seg => endBound_append_single rest _ seg

theorem le_endBound :
    ∀ (rs : List Segment) (lo : Nat), ChainedFrom lo rs → lo ≤ endBound lo rs
  | [], _, _ => Nat.le_refl _
  | seg :: rest, lo, ⟨h1, h2, hc⟩ =>
    Nat.le_trans (by omega) (le_endBound rest seg.stop hc)

theorem chained_append_single :
    ∀ (rs : List Segment) (lo : Nat) (seg : Segment),
      ChainedFrom lo rs → endBound lo rs ≤ seg.start →
      seg.start < seg.stop → ChainedFrom lo (rs ++ [seg])
  | [], _, _, _, hend, hlt => ⟨hend, hlt, trivial⟩
  | s :: rest, _, seg, ⟨h1, h2, hc⟩, hend, hlt =>
    ⟨h1, h2, chained_append_single rest s.stop seg hc hend hlt⟩

theorem chained_start_le :
    ∀ (rs : List Segment) (lo : Nat), ChainedFrom lo rs →
      ∀ seg ∈ rs, lo ≤ seg.start := by
  intro rs
  induction rs with
  | nil => intro lo _ seg hseg; cases hseg
  | cons s rest ih =>
    intro lo hch seg hseg
    obtain ⟨h1, h2, hc⟩ := hch
    rcases List.mem_cons.mp hseg with rfl | hmem
    · exact h1
    · exact Nat.le_trans (by omega) (ih s.stop hc seg hmem)

theorem chained_nonempty :
    ∀ (rs : List Segment) (lo : Nat), ChainedFrom lo rs →
      ∀ seg ∈ rs, seg.start < seg.stop := by
  intro rs
  induction rs with
  | nil => intro lo _ seg hseg; cases hseg
  | cons s rest ih =>
    intro lo hch seg hseg
    obtain ⟨h1, h2, hc⟩ := hch
    rcases List.mem_cons.mp hseg with rfl | hmem
    · exact h2
    · exact ih s.stop hc seg hmem

theorem chained_pairwise :
    ∀ (rs : List Segment) (lo : Nat), ChainedFrom lo rs →
      rs.Pairwise (fun a b => a.stop ≤ b.start) := by
  intro rs
  induction rs with
  | nil => intro lo _; exact List.Pairwise.nil
  | cons s rest ih =>
    intro lo hch
    obtain ⟨h1, h2, hc⟩ := hch
    exact List.Pairwise.cons (fun b hb => chained_start_le rest s.stop hc b hb)
      (ih s.stop hc)

/-- The loop invariant behind the ordering guarantees: the emitted
segments are chained, the last emitted stop keeps `maxFlats` indices of
distance from the next loop index `k`, the candidate start `m` sits after
everything already emitted while recording, and `m` is an index already
passed. -/
def ScanInv (maxFlats : Int) (s : ScanState) (k : Nat) : Prop :=
  ChainedFrom 0 s.results ∧
  (s.results = [] ∨ ((endBound 0 s.results : Nat) : Int) ≤ (k : Int) - maxFlats) ∧
  (s.recording = true → endBound 0 s.results ≤ s.m) ∧
  s.m < k

theorem scanInv_step {maxFlats : Int} {x y : List Sample}
    (hmf : 1 ≤ maxFlats) (t : ScanState) (n : Nat)
    (hInv : ScanInv maxFlats t n) :
    ScanInv maxFlats (step maxFlats x y t n) (n + 1) := by
  obtain ⟨hch, hend, hrec, hm⟩ := hInv
  rcases ha : alignedAt x y n with _ | _
  · rw [step_skip ha]
    refine ⟨hch, ?_, hrec, by omega⟩
    rcases hend with h | h
    · exact Or.inl h
    · exact Or.inr (by omega)
  · rcases hf : flatAt x y n with _ | _
    · rcases hr : t.recording with _ | _
      · rw [step_change_restart ha hf hr]
        refine ⟨hch, ?_, ?_, ?_⟩
        · dsimp only
          rcases hend with h | h
          · exact Or.inl h
          · exact Or.inr (by omega)
        · intro _
          dsimp only
          rcases hend with h | h
          · simp [h, endBound]
          · omega
        · dsimp only
          omega
      · rw [step_change_recording ha hf hr]
        refine ⟨hch, ?_, hrec, by omega⟩
        rcases hend with h | h
        · exact Or.inl h
        · exact Or.inr (by omega)
    · rcases hr : t.recording with _ | _
      · rw [step_flat_idle ha hf hr]
        refine ⟨hch, ?_, ?_, ?_⟩
        · dsimp only
          rcases hend with h | h
          · exact Or.inl h
          · exact Or.inr (by omega)
        · dsimp only
          intro h
          exact absurd h (by simp [hr])
        · dsimp only
          omega
      · by_cases hhi : maxFlats ≤ ((t.flat + 1 : Nat) : Int)
        · by_cases hsz : ((n : Int) - maxFlats) - (t.m : Int) > 1
          · rw [step_flat_close_emit ha hf hr hhi hsz]
            have hmle : endBound 0 t.results ≤ t.m := hrec hr
            refine ⟨?_, ?_, ?_, ?_⟩
            · dsimp only
              exact chained_append_single _ 0 _ hch (by dsimp only; omega)
                (by dsimp only; omega)
            · dsimp only
              refine Or.inr ?_
              rw [endBound_append_single]
              dsimp only
              omega
            · dsimp only
              intro h
              exact absurd h (by simp)
            · dsimp only
              omega
          · rw [step_flat_close_drop ha hf hr hhi hsz]
            refine ⟨hch, ?_, ?_, ?_⟩
            · dsimp only
              rcases hend with h | h
              · exact Or.inl h
              · exact Or.inr (by omega)
            · dsimp only
              intro h
              exact absurd h (by simp)
            · dsimp only
              omega
        · rw [step_flat_low ha hf hr (by omega)]
          refine ⟨hch, ?_, ?_, ?_⟩
          · dsimp only
            rcases hend with h | h
            · exact Or.inl h
            · exact Or.inr (by omega)
          · dsimp only
            intro _
            exact hrec hr
          · dsimp only
            omega

/-- After the whole loop the invariant holds at `k = length`. -/
theorem scanInv_runScan {maxFlats : Int} {x y : List Sample}
    (hmf : 1 ≤ maxFlats) (hL : 2 ≤ x.length) :
    ScanInv maxFlats (runScan maxFlats x y) x.length := by
  have h0 : ScanInv maxFlats startState 1 := by
    refine ⟨trivial, Or.inl rfl, fun _ => Nat.le_refl 0, by simp [startState]⟩
  have h := @runSteps_inv maxFlats x y
    (ScanInv maxFlats) (x.length - 1) 1 startState
    (fun t n _ _ ht => scanInv_step hmf t n ht) h0
  have he : 1 + (x.length - 1) = x.length := by omega
  rw [he] at h
  exact h

/-- Everything `find_breaks` returns is a chain of non-empty, pairwise
disjoint ranges bounded by the input length. -/
theorem find_breaks_ok_chained {x y : List Sample} {maxFlats : Int}
    {segs : List Segment} (hmf : 1 ≤ maxFlats)
    (h : find_breaks x y maxFlats = .ok segs) :
    ChainedFrom 0 segs ∧ endBound 0 segs ≤ x.length := by
  by_cases hlen : y.length ≠ x.length
  · simp [find_breaks, hlen] at h
  by_cases hL : x.length < 2
  · simp [find_breaks, hlen, hL] at h
  push_neg at hL
  have hInv := @scanInv_runScan maxFlats x y hmf hL
  obtain ⟨hch, hend, hrec, hm⟩ := hInv
  have hbound : endBound 0 (runScan maxFlats x y).results ≤ x.length := by
    rcases hend with h' | h'
    · simp [h', endBound]
    · omega
  rw [find_breaks] at h
  rw [if_neg hlen, if_neg (by omega)] at h
  by_cases hfin : ((runScan maxFlats x y).recording &&
      ((((x.length : Int) - 1) - (((runScan maxFlats x y).m : Nat) : Int) > 1) : Bool)) = true
  · rw [if_pos hfin] at h
    have hrecb : (runScan maxFlats x y).recording = true :=
      (Bool.and_eq_true_iff.mp hfin).1
    have hgap : ((x.length : Int) - 1) - ((runScan maxFlats x y).m : Int) > 1 := by
      have := (Bool.and_eq_true_iff.mp hfin).2
      exact of_decide_eq_true this
    have hmle := hrec hrecb
    obtain rfl : (runScan maxFlats x y).results ++
        [⟨(runScan maxFlats x y).m, x.length⟩] = segs := by
      injection h
    constructor
    · exact chained_append_single _ 0 _ hch (by dsimp only; omega)
        (by dsimp only; omega)
    · rw [endBound_append_single]
  · rw [if_neg hfin] at h
    obtain rfl : (runScan maxFlats x y).results = segs := by injection h
    exact ⟨hch, hbound⟩

/-! ### Concatenating segment ranges yields a subsequence of the indices -/

/-- The concatenation of the half-open index ranges of a list of
segments, in order. -/
def segIndices : List Segment → List Nat
  | [] => []
  | seg :: rest => List.range' seg.start (seg.stop - seg.start) ++ segIndices rest

theorem range'_split {lo a len : Nat} (h1 : lo ≤ a) (h2 : a ≤ len) :
    List.range' lo (len - lo) = List.range' lo (a - lo) ++ List.range' a (len - a) := by
  have e2 : (len - a) + (a - lo) = len - lo := by omega
  have e1 : lo + (a - lo) = a := by omega
  rw [← e2, ← List.range'_append_1, e1]

theorem segIndices_sublist :
    ∀ (rs : List Segment) (lo len : Nat), ChainedFrom lo rs →
      endBound lo rs ≤ len →
      (segIndices rs).Sublist (List.range' lo (len - lo))
  | [], _, _, _, _ => List.nil_sublist _
  | seg :: rest, lo, len, ⟨h1, h2, hc⟩, hend => by
    have hstop : seg.stop ≤ len :=
      Nat.le_trans (le_endBound rest seg.stop hc) hend
    have ih := segIndices_sublist rest seg.stop len hc hend
    rw [range'_split h1 (by omega), range'_split (Nat.le_of_lt h2) hstop]
    show (List.range' seg.start (seg.stop - seg.start) ++ segIndices rest).Sublist _
    have hA : (List.range' seg.start (seg.stop - seg.start)).Sublist
        (List.range' lo (seg.start - lo) ++ List.range' seg.start (seg.stop - seg.start)) :=
      List.sublist_append_right _ _
    have := List.Sublist.append hA ih
    simpa [List.append_assoc] using this

/-! ### Settling the claims -/

/-- C6: for fewer than two samples (with matching series lengths, so the
frame is built), the loop body never runs and the final
`if recording and (n - m) > 1` reads the unbound loop variable `n`:
`find_breaks` raises `NameError` instead of returning an empty list. -/
theorem c6_short_input_name_error (x y : List Sample) (maxFlats : Int)
    (hlen : y.length = x.length) (hL : x.length < 2) :
    find_breaks x y maxFlats = .error .nameError := by
  rw [find_breaks, if_neg (by omega), if_pos hL]

theorem c6_short_input_name_error_witness :
    (mkSeries [7]).length = (mkSeries [7]).length ∧ (mkSeries [7]).length < 2 ∧
    find_breaks (mkSeries [7]) (mkSeries [7]) 5 = .error .nameError :=
  ⟨rfl, by decide,
    c6_short_input_name_error (mkSeries [7]) (mkSeries [7]) 5 rfl (by decide)⟩

/-- C7: series of unequal length make the combined-frame construction
raise pandas' `ValueError` (an invalid-argument error) before the scan
starts, so no segment is ever produced and nothing is silently
truncated. -/
theorem c7_length_mismatch_value_error (x y : List Sample) (maxFlats : Int)
    (hlen : y.length ≠ x.length) :
    find_breaks x y maxFlats = .error .valueError := by
  rw [find_breaks, if_pos hlen]

theorem c7_length_mismatch_value_error_witness :
    (mkSeries [1]).length ≠ (mkSeries [1, 2]).length ∧
    find_breaks (mkSeries [1, 2]) (mkSeries [1]) 5 = .error .valueError :=
  ⟨by decide,
    c7_length_mismatch_value_error (mkSeries [1, 2]) (mkSeries [1]) 5 (by decide)⟩

/-- C9: at an index where the MJD alignment keys of the two series
differ, the loop iteration is a complete no-op: `m`, `flat`, `recording`
and the emitted segments all keep their prior values. -/
theorem c9_misaligned_index_no_op (maxFlats : Int) (x y : List Sample)
    (s : ScanState) (n : Nat) (h : alignedAt x y n = false) :
    step maxFlats x y s n = s :=
  step_skip h

theorem c9_misaligned_index_no_op_witness :
    alignedAt [⟨0, 0⟩, ⟨1, 5⟩] [⟨0, 0⟩, ⟨2, 5⟩] 1 = false ∧
    step 5 [⟨0, 0⟩, ⟨1, 5⟩] [⟨0, 0⟩, ⟨2, 5⟩] ⟨0, 2, true, [⟨3, 7⟩]⟩ 1 =
      ⟨0, 2, true, [⟨3, 7⟩]⟩ :=
  ⟨by decide,
    c9_misaligned_index_no_op 5 [⟨0, 0⟩, ⟨1, 5⟩] [⟨0, 0⟩, ⟨2, 5⟩]
      ⟨0, 2, true, [⟨3, 7⟩]⟩ 1 (by decide)⟩

/-- C1 fails as stated: a fully flat, fully aligned pair of length-3
series with `max_flat = 3` (so the flat run never reaches the threshold)
yields one segment spanning the whole input, not an empty sequence. -/
theorem c1_counterexample :
    flatAt (mkSeries [1, 1, 1]) (mkSeries [1, 1, 1]) 1 = true ∧
    flatAt (mkSeries [1, 1, 1]) (mkSeries [1, 1, 1]) 2 = true ∧
    alignedAt (mkSeries [1, 1, 1]) (mkSeries [1, 1, 1]) 1 = true ∧
    alignedAt (mkSeries [1, 1, 1]) (mkSeries [1, 1, 1]) 2 = true ∧
    find_breaks (mkSeries [1, 1, 1]) (mkSeries [1, 1, 1]) 3 =
      .ok [⟨0, 3⟩] := by
  decide

/-- C4 fails as stated for length exactly 2: a fully varying, fully
aligned pair of length-2 series yields no segment at all, because the
final emission condition compares the last loop index `1`, not the
length `2`, against the segment start. -/
theorem c4_counterexample :
    flatAt (mkSeries [0, 1]) (mkSeries [0, 0]) 1 = false ∧
    alignedAt (mkSeries [0, 1]) (mkSeries [0, 0]) 1 = true ∧
    find_breaks (mkSeries [0, 1]) (mkSeries [0, 0]) 5 = .ok [] := by
  decide

/-- C3 fails as stated: on a fully varying aligned length-2 input the
scan completes still recording with `segment_start = 0`, the final span
length (input length minus segment start) is `2 > 1`, and yet no final
segment is emitted — the code compares `n - m` with `n` the last loop
index `length - 1`, not the length. -/
theorem c3_counterexample :
    (runScan 5 (mkSeries [0, 1]) (mkSeries [0, 0])).recording = true ∧
    (runScan 5 (mkSeries [0, 1]) (mkSeries [0, 0])).m = 0 ∧
    ((mkSeries [0, 1]).length : Int) -
      ((runScan 5 (mkSeries [0, 1]) (mkSeries [0, 0])).m : Int) > 1 ∧
    find_breaks (mkSeries [0, 1]) (mkSeries [0, 0]) 5 = .ok [] := by
  decide

/-- C5 fails as stated: `find_breaks` performs no validation of
`max_flats`; called with the non-positive threshold `0` it processes the
input normally and returns an ordinary (empty) result instead of
raising an invalid-argument error. -/
theorem c5_counterexample :
    find_breaks (mkSeries [1, 1, 1]) (mkSeries [1, 1, 1]) 0 = .ok [] := by
  decide

/-- C5 amended: `find_breaks` does not validate `max_flats` at all; for
any threshold — non-positive included — and any equal-length input with
at least two samples it returns a normal list of segments, never an
invalid-argument error. -/
theorem c5_amended_no_validation (x y : List Sample) (maxFlats : Int)
    (hlen : y.length = x.length) (hL : 2 ≤ x.length) :
    ∃ segs, find_breaks x y maxFlats = .ok segs := by
  rw [find_breaks, if_neg (by omega), if_neg (by omega)]
  by_cases hfin : ((runScan maxFlats x y).recording &&
      ((((x.length : Int) - 1) - (((runScan maxFlats x y).m : Nat) : Int) > 1) : Bool)) = true
  · rw [if_pos hfin]
    exact ⟨_, rfl⟩
  · rw [if_neg hfin]
    exact ⟨_, rfl⟩

theorem c5_amended_no_validation_witness :
    (mkSeries [1, 1, 1]).length = (mkSeries [1, 1, 1]).length ∧
    2 ≤ (mkSeries [1, 1, 1]).length ∧
    ∃ segs, find_breaks (mkSeries [1, 1, 1]) (mkSeries [1, 1, 1]) (-4) = .ok segs :=
  ⟨rfl, by decide,
    c5_amended_no_validation (mkSeries [1, 1, 1]) (mkSeries [1, 1, 1]) (-4) rfl
      (by decide)⟩

/-- C1 amended: on a fully flat, fully aligned input the whole scan keeps
`m = 0`, `results = []`, counts `flat` up by one per index, and stays
recording exactly while `flat` is below the threshold. -/
theorem flat_scan_state {maxFlats : Int} {x y : List Sample}
    (hmf : 1 ≤ maxFlats)
    (hflat : ∀ n, n < x.length → 1 ≤ n →
      alignedAt x y n = true ∧ flatAt x y n = true) :
    ∀ k, 1 ≤ k → k ≤ x.length →
      (runSteps maxFlats x y startState 1 (k - 1)).m = 0 ∧
      (runSteps maxFlats x y startState 1 (k - 1)).results = [] ∧
      (runSteps maxFlats x y startState 1 (k - 1)).flat + 1 = k ∧
      ((runSteps maxFlats x y startState 1 (k - 1)).recording = true ↔
        (k : Int) - 1 < maxFlats) := by
  intro k hk1 hk2
  have h := @runSteps_inv maxFlats x y
    (fun s j => s.m = 0 ∧ s.results = [] ∧ s.flat + 1 = j ∧
      (s.recording = true ↔ (j : Int) - 1 < maxFlats))
    (k - 1) 1 startState ?_ ⟨rfl, rfl, rfl, by simp [startState]; omega⟩
  · have he : 1 + (k - 1) = k := by omega
    rw [he] at h
    exact h
  · intro t n hn1 hn2 ht
    obtain ⟨htm, htr, htf, htrec⟩ := ht
    obtain ⟨ha, hf⟩ := hflat n (by omega) hn1
    rcases hr : t.recording with _ | _
    · have hge : ¬((n : Int) - 1 < maxFlats) := fun hc => by
        rw [htrec.mpr hc] at hr
        exact Bool.true_eq_false.mp hr
      rw [step_flat_idle ha hf hr]
      refine ⟨htm, htr, by dsimp only; omega, ?_⟩
      dsimp only
      simp [hr]
      omega
    · have hlt : (n : Int) - 1 < maxFlats := htrec.mp hr
      by_cases hhi : maxFlats ≤ ((t.flat + 1 : Nat) : Int)
      · rw [step_flat_close_drop ha hf hr hhi (by omega)]
        refine ⟨htm, htr, by dsimp only; omega, ?_⟩
        dsimp only
        simp
        omega
      · rw [step_flat_low ha hf hr (by omega)]
        refine ⟨htm, htr, by dsimp only; omega, ?_⟩
        dsimp only
        simp [hr]
        omega

/-- C1 amended: for equal-length, fully aligned series of length `L ≥ 2`
in which every consecutive pair is unchanged in both x and y,
`find_breaks` returns an empty sequence of segments for every threshold
with `1 ≤ max_flats ≤ L - 1` (so that the flat run actually reaches the
threshold during the scan; a longer threshold instead re-emits the whole
flat series as one segment, as the C1 counterexample shows). -/
theorem c1_amended_flat_input_empty (x y : List Sample) (maxFlats : Int)
    (hlen : y.length = x.length) (hL : 2 ≤ x.length)
    (hmf1 : 1 ≤ maxFlats) (hmf2 : maxFlats ≤ (x.length : Int) - 1)
    (hflat : ∀ n, n < x.length → 1 ≤ n →
      alignedAt x y n = true ∧ flatAt x y n = true) :
    find_breaks x y maxFlats = .ok [] := by
  obtain ⟨hm, hres, hfl, hrec⟩ :=
    flat_scan_state hmf1 hflat x.length (by omega) (Nat.le_refl _)
  have hrecF : (runScan maxFlats x y).recording = false := by
    rcases hr : (runScan maxFlats x y).recording with _ | _
    · rfl
    · have := hrec.mp (by rw [← hr]; rfl)
      omega
  rw [find_breaks, if_neg (by omega), if_neg (by omega)]
  rw [if_neg (by simp [runScan] at hrecF ⊢; simp [hrecF])]
  rw [show (runScan maxFlats x y).results = [] from hres]

theorem c1_amended_flat_input_empty_witness :
    find_breaks (mkSeries [1, 1, 1]) (mkSeries [1, 1, 1]) 2 = .ok [] :=
  c1_amended_flat_input_empty (mkSeries [1, 1, 1]) (mkSeries [1, 1, 1]) 2
    rfl (by decide) (by decide) (by decide) (by decide)

/-- C4 amended: on a fully varying, fully aligned input every iteration
is a no-op, so the scan state never leaves its start value. -/
theorem varying_scan_state {maxFlats : Int} {x y : List Sample}
    (hvary : ∀ n, n < x.length → 1 ≤ n →
      alignedAt x y n = true ∧ flatAt x y n = false) :
    runScan maxFlats x y = startState := by
  have h := @runSteps_inv maxFlats x y
    (fun s _ => s = startState) (x.length - 1) 1 startState ?_ rfl
  · exact h
  · intro t n hn1 hn2 ht
    obtain ⟨ha, hf⟩ := hvary n (by omega) hn1
    rw [ht, step_change_recording ha hf rfl]

/-- C4 amended: for every pair of equal-length, fully aligned series of
length at least 3 in which every consecutive pair of samples changes in
at least one of x and y, `find_breaks` returns exactly one segment
spanning the full input.  (At length exactly 2 the claim fails: the
trailing span of 2 is dropped, see the C4 counterexample.) -/
theorem c4_amended_varying_input_one_segment (x y : List Sample)
    (maxFlats : Int) (hlen : y.length = x.length) (hL : 3 ≤ x.length)
    (hvary : ∀ n, n < x.length → 1 ≤ n →
      alignedAt x y n = true ∧ flatAt x y n = false) :
    find_breaks x y maxFlats = .ok [⟨0, x.length⟩] := by
  have hscan := @varying_scan_state maxFlats x y hvary
  rw [find_breaks, if_neg (by omega), if_neg (by omega), hscan]
  rw [if_pos (by simp [startState]; omega)]
  simp [startState]

theorem c4_amended_varying_input_one_segment_witness :
    find_breaks (mkSeries [0, 1, 2]) (mkSeries [0, 1, 2]) 5 =
      .ok [⟨0, (mkSeries [0, 1, 2]).length⟩] :=
  c4_amended_varying_input_one_segment (mkSeries [0, 1, 2])
    (mkSeries [0, 1, 2]) 5 rfl (by decide) (by decide)

/-! ### Flat runs against the threshold (C2) -/

/-- While not recording, a stretch of aligned flat samples only counts:
the flat counter grows by the run length and recording stays off. -/
theorem flat_run_idle {maxFlats : Int} {x y : List Sample} :
    ∀ (j n0 : Nat) (s : ScanState), s.recording = false →
      (∀ i, i < n0 + j → n0 ≤ i →
        alignedAt x y i = true ∧ flatAt x y i = true) →
      (runSteps maxFlats x y s n0 j).flat = s.flat + j ∧
      (runSteps maxFlats x y s n0 j).recording = false
  | 0, _, _, hr, _ => ⟨rfl, hr⟩
  | j + 1, n0, s, hr, hrun => by
    obtain ⟨ha, hf⟩ := hrun n0 (by omega) (Nat.le_refl _)
    have hstep := @step_flat_idle maxFlats x y s n0 ha hf hr
    have ih := @flat_run_idle maxFlats x y j (n0 + 1) (step maxFlats x y s n0)
      (by rw [hstep]; exact hr) (fun i h1 h2 => hrun i (by omega) (by omega))
    rw [runSteps, List.range'_succ, List.foldl_cons]
    rw [runSteps] at ih
    rw [hstep] at ih ⊢
    dsimp only at ih
    exact ⟨by omega, ih.2⟩

/-- From a recording state, a stretch of `j` aligned flat samples adds
`j` to the flat counter, and leaves the scan recording exactly when the
counter never reached the threshold (the counter is never reset during
the run). -/
theorem flat_run_recording {maxFlats : Int} {x y : List Sample} :
    ∀ (j n0 : Nat) (s : ScanState), s.recording = true →
      (∀ i, i < n0 + j → n0 ≤ i →
        alignedAt x y i = true ∧ flatAt x y i = true) →
      (runSteps maxFlats x y s n0 j).flat = s.flat + j ∧
      ((runSteps maxFlats x y s n0 j).recording = true ↔
        (j = 0 ∨ ((s.flat + j : Nat) : Int) < maxFlats))
  | 0, _, _, hr, _ => ⟨rfl, by simp [runSteps, hr]⟩
  | j + 1, n0, s, hr, hrun => by
    obtain ⟨ha, hf⟩ := hrun n0 (by omega) (Nat.le_refl _)
    rw [runSteps, List.range'_succ, List.foldl_cons]
    by_cases hhi : maxFlats ≤ ((s.flat + 1 : Nat) : Int)
    · by_cases hsz : ((n0 : Int) - maxFlats) - (s.m : Int) > 1
      · have hstep := step_flat_close_emit ha hf hr hhi hsz
        have ih := @flat_run_idle maxFlats x y j (n0 + 1)
          (step maxFlats x y s n0) (by rw [hstep])
          (fun i h1 h2 => hrun i (by omega) (by omega))
        rw [runSteps] at ih
        rw [hstep] at ih ⊢
        dsimp only at ih
        refine ⟨by omega, ?_⟩
        rw [ih.2]
        simp only [Bool.false_eq_true, false_iff, not_or]
        exact ⟨by omega, by omega⟩
      · have hstep := step_flat_close_drop ha hf hr hhi hsz
        have ih := @flat_run_idle maxFlats x y j (n0 + 1)
          (step maxFlats x y s n0) (by rw [hstep])
          (fun i h1 h2 => hrun i (by omega) (by omega))
        rw [runSteps] at ih
        rw [hstep] at ih ⊢
        dsimp only at ih
        refine ⟨by omega, ?_⟩
        rw [ih.2]
        simp only [Bool.false_eq_true, false_iff, not_or]
        exact ⟨by omega, by omega⟩
    · have hstep := @step_flat_low maxFlats x y s n0 ha hf hr (by omega)
      have ih := @flat_run_recording maxFlats x y j (n0 + 1) (step maxFlats x y s n0)
        (by rw [hstep]; exact hr) (fun i h1 h2 => hrun i (by omega) (by omega))
      rw [runSteps] at ih
      rw [hstep] at ih ⊢
      dsimp only at ih
      refine ⟨by omega, ?_⟩
      rw [ih.2]
      constructor
      · intro h
        rcases h with h | h
        · subst h
          right
          omega
        · right
          omega
      · intro h
        rcases h with h | h
        · omega
        · by_cases hj : j = 0
          · exact Or.inl hj
          · right
            omega

/-- C2 amended: from any recording state whose flat counter is zero (a
fresh segment start), a run of exactly `max_flats - 1` aligned flat
samples leaves the scan still recording; from any recording state —
whatever earlier flat samples already accumulated — a run of exactly
`max_flats` aligned flat samples always stops recording.  (Without the
`flat = 0` premise the first half is false, because the counter is not
reset inside a segment: see the C2 counterexample.) -/
theorem c2_amended_flat_run_boundary (x y : List Sample) (maxFlats : Int)
    (n0 : Nat) (s : ScanState) (hmf : 1 ≤ maxFlats)
    (hrec : s.recording = true) :
    ((∀ i, i < n0 + (maxFlats - 1).toNat → n0 ≤ i →
        alignedAt x y i = true ∧ flatAt x y i = true) →
      s.flat = 0 →
      (runSteps maxFlats x y s n0 (maxFlats - 1).toNat).recording = true) ∧
    ((∀ i, i < n0 + maxFlats.toNat → n0 ≤ i →
        alignedAt x y i = true ∧ flatAt x y i = true) →
      (runSteps maxFlats x y s n0 maxFlats.toNat).recording = false) := by
  constructor
  · intro hrun hflat0
    have h := (@flat_run_recording maxFlats x y (maxFlats - 1).toNat n0 s hrec hrun).2
    rw [h]
    by_cases hj : (maxFlats - 1).toNat = 0
    · exact Or.inl hj
    · right
      rw [hflat0]
      omega
  · intro hrun
    have h := (@flat_run_recording maxFlats x y maxFlats.toNat n0 s hrec hrun).2
    rcases hres : (runSteps maxFlats x y s n0 maxFlats.toNat).recording with _ | _
    · rfl
    · rcases h.mp hres with hj | hj
      · omega
      · omega

/-- C2 fails as stated: with `max_flats = 3`, after a single flat sample
followed by a changing one (so the scan is still recording the same
segment but the counter already holds 1), the run of exactly
`max_flats - 1 = 2` consecutive flat samples at indices 3 and 4 closes
the active segment — the counter is never reset inside a segment. -/
theorem c2_counterexample :
    (runSteps 3 (mkSeries [0, 0, 1, 1, 1]) (mkSeries [0, 0, 0, 0, 0])
      startState 1 2).recording = true ∧
    flatAt (mkSeries [0, 0, 1, 1, 1]) (mkSeries [0, 0, 0, 0, 0]) 2 = false ∧
    alignedAt (mkSeries [0, 0, 1, 1, 1]) (mkSeries [0, 0, 0, 0, 0]) 3 = true ∧
    flatAt (mkSeries [0, 0, 1, 1, 1]) (mkSeries [0, 0, 0, 0, 0]) 3 = true ∧
    alignedAt (mkSeries [0, 0, 1, 1, 1]) (mkSeries [0, 0, 0, 0, 0]) 4 = true ∧
    flatAt (mkSeries [0, 0, 1, 1, 1]) (mkSeries [0, 0, 0, 0, 0]) 4 = true ∧
    (runSteps 3 (mkSeries [0, 0, 1, 1, 1]) (mkSeries [0, 0, 0, 0, 0])
      (runSteps 3 (mkSeries [0, 0, 1, 1, 1]) (mkSeries [0, 0, 0, 0, 0])
        startState 1 2) 3 2).recording = false := by
  decide

theorem c2_amended_flat_run_boundary_witness :
    (runSteps 3 (mkSeries [9, 9, 9]) (mkSeries [4, 4, 4]) startState 1
      ((3 : Int) - 1).toNat).recording = true :=
  (c2_amended_flat_run_boundary (mkSeries [9, 9, 9]) (mkSeries [4, 4, 4]) 3 1
    startState (by decide) rfl).1 (by decide) rfl

/-- C3 amended: when the scan completes still recording, the final
segment `Segment(segment_start, length)` is emitted if and only if the
LAST LOOP INDEX minus the segment start — `(length - 1) - segment_start`,
the Python `n - m` with `n` left at `len - 1` — exceeds 1; otherwise the
scan's accumulated results are returned unchanged.  In particular a
trailing still-recording span of exactly 2 samples is NOT emitted (see
the C3 counterexample). -/
theorem c3_amended_final_emission (x y : List Sample) (maxFlats : Int)
    (hlen : y.length = x.length) (hL : 2 ≤ x.length)
    (hrec : (runScan maxFlats x y).recording = true) :
    (find_breaks x y maxFlats =
        .ok ((runScan maxFlats x y).results ++
          [⟨(runScan maxFlats x y).m, x.length⟩]) ↔
      ((x.length : Int) - 1) - ((runScan maxFlats x y).m : Int) > 1) ∧
    (¬(((x.length : Int) - 1) - ((runScan maxFlats x y).m : Int) > 1) →
      find_breaks x y maxFlats = .ok (runScan maxFlats x y).results) := by
  rw [find_breaks, if_neg (by omega), if_neg (by omega)]
  by_cases hgap : ((x.length : Int) - 1) - ((runScan maxFlats x y).m : Int) > 1
  · rw [if_pos (by rw [hrec]; simpa using hgap)]
    exact ⟨by simp [hgap], fun hc => absurd hgap hc⟩
  · rw [if_neg (by simp [hrec]; omega)]
    refine ⟨⟨fun h => ?_, fun h => absurd h hgap⟩, fun _ => rfl⟩
    have heq : (runScan maxFlats x y).results =
        (runScan maxFlats x y).results ++
          [⟨(runScan maxFlats x y).m, x.length⟩] := by
      injection h
    have hlen2 := congrArg List.length heq
    simp at hlen2

theorem c3_amended_final_emission_witness :
    find_breaks (mkSeries [0, 1, 2]) (mkSeries [0, 1, 2]) 5 =
      .ok ((runScan 5 (mkSeries [0, 1, 2]) (mkSeries [0, 1, 2])).results ++
        [⟨(runScan 5 (mkSeries [0, 1, 2]) (mkSeries [0, 1, 2])).m,
          (mkSeries [0, 1, 2]).length⟩]) :=
  (c3_amended_final_emission (mkSeries [0, 1, 2]) (mkSeries [0, 1, 2]) 5
    rfl (by decide) (by decide)).1.mpr (by decide)

/-- C8 fails as stated: with `max_flats = 3` and the aligned series
`x = [0,0,1,2,3,3,3]`, `y = [0,0,0,0,0,0,0]`, the one returned segment
is `[0, 3)`; index 3 is covered by no segment although its alignment
keys match and its reading changed (it lies in no flat run: both the
pair arriving at 3 and the pair leaving 3 change).  The flat counter
accumulated across the segment, so the `max_flats`-deep cut at the close
dropped changing samples. -/
theorem c8_counterexample :
    find_breaks (mkSeries [0, 0, 1, 2, 3, 3, 3])
      (mkSeries [0, 0, 0, 0, 0, 0, 0]) 3 = .ok [⟨0, 3⟩] ∧
    covers [⟨0, 3⟩] 3 = false ∧
    alignedAt (mkSeries [0, 0, 1, 2, 3, 3, 3])
      (mkSeries [0, 0, 0, 0, 0, 0, 0]) 3 = true ∧
    flatAt (mkSeries [0, 0, 1, 2, 3, 3, 3])
      (mkSeries [0, 0, 0, 0, 0, 0, 0]) 3 = false ∧
    flatAt (mkSeries [0, 0, 1, 2, 3, 3, 3])
      (mkSeries [0, 0, 0, 0, 0, 0, 0]) 4 = false := by
  decide

/-- C8 amended: for every input and `max_flats ≥ 1`, concatenating the
index ranges of the returned segments in order yields a subsequence of
the original sample indices `0, 1, ..., length - 1`.  (The second half
of the original claim — that every uncovered index lies in a flat run or
at a misalignment — is dropped: the counterexample shows a covered-by-no-
segment index that is aligned and changing.) -/
theorem c8_amended_concat_subsequence (x y : List Sample) (maxFlats : Int)
    (hmf : 1 ≤ maxFlats) (segs : List Segment)
    (h : find_breaks x y maxFlats = .ok segs) :
    (segIndices segs).Sublist (List.range x.length) := by
  obtain ⟨hch, hend⟩ := find_breaks_ok_chained hmf h
  have hs := segIndices_sublist segs 0 x.length hch hend
  rw [List.range_eq_range']
  simpa using hs

theorem c8_amended_concat_subsequence_witness :
    (segIndices [⟨0, 3⟩]).Sublist
      (List.range (mkSeries [0, 0, 1, 2, 3, 3, 3]).length) :=
  c8_amended_concat_subsequence (mkSeries [0, 0, 1, 2, 3, 3, 3])
    (mkSeries [0, 0, 0, 0, 0, 0, 0]) 3 (by decide) [⟨0, 3⟩] (by decide)

/-- C10: for every input and `max_flats ≥ 1`, the returned segments are
non-empty, pairwise non-overlapping index ranges listed so that each one
ends no later than the next begins — in particular their start indices
are in (strictly) non-decreasing order. -/
theorem c10_segments_disjoint_ordered (x y : List Sample) (maxFlats : Int)
    (hmf : 1 ≤ maxFlats) (segs : List Segment)
    (h : find_breaks x y maxFlats = .ok segs) :
    (∀ seg ∈ segs, seg.start < seg.stop) ∧
    segs.Pairwise (fun a b => a.stop ≤ b.start) := by
  obtain ⟨hch, _⟩ := find_breaks_ok_chained hmf h
  exact ⟨chained_nonempty segs 0 hch, chained_pairwise segs 0 hch⟩

theorem c10_segments_disjoint_ordered_witness :
    (∀ seg ∈ ([⟨0, 2⟩, ⟨5, 8⟩] : List Segment), seg.start < seg.stop) ∧
    ([⟨0, 2⟩, ⟨5, 8⟩] : List Segment).Pairwise (fun a b => a.stop ≤ b.start) :=
  c10_segments_disjoint_ordered (mkSeries [0, 1, 2, 2, 2, 5, 6, 7])
    (mkSeries [0, 0, 0, 0, 0, 0, 0, 0]) 2 (by decide) [⟨0, 2⟩, ⟨5, 8⟩]
    (by decide)

end FindBreaks
